import Mathlib

/-!
Verification of the PsicoTrain exercise-viewer state machine.

This file gives a shallow embedding of the viewer's zoom engine, page
navigation, answer panel, committed-answer flow, drawing persistence keys
and brush-size loading, translated from the application source, and proves
the stated properties about them.  Real numbers of the JavaScript source
are modelled as rationals; JavaScript objects used as maps are modelled as
association lists or as functions into `Option`.
-/

namespace PsicoTrain

/-- JavaScript `Math.round`: the nearest integer, with ties going toward
positive infinity. -/
def jsRound (x : ℚ) : ℤ := ⌊x + 1/2⌋

/-- The one-decimal quantisation step used throughout the zoom code:
`Math.round(x * 10) / 10`. -/
def roundTenth (x : ℚ) : ℚ := (jsRound (x * 10) : ℚ) / 10

/-- `zoomIn()`: `state.zoomLevel = Math.min(state.zoomLevel + 0.1, 4)`
followed by the quantisation step. -/
def zoomIn (l : ℚ) : ℚ := roundTenth (min (l + 1/10) 4)

/-- `zoomOut()`: `state.zoomLevel = Math.max(state.zoomLevel - 0.1, 0.2)`
followed by the quantisation step. -/
def zoomOut (l : ℚ) : ℚ := roundTenth (max (l - 1/10) (1/5))

/-- `resetZoom()`: `state.zoomLevel = 1`. -/
def resetZoom (_l : ℚ) : ℚ := 1

/-- The `touchmove` pinch handler: when `initialPinchDistance > 0`, the new
zoom level is `Math.max(0.2, Math.min(4, initialZoomLevel * scale))` with
`scale = currentDistance / initialPinchDistance`, quantised; otherwise the
zoom level is left alone. -/
def pinchUpdate (zoomLevel initialZoomLevel initialPinchDistance currentDistance : ℚ) : ℚ :=
  if 0 < initialPinchDistance then
    roundTenth (max (1/5) (min 4 (initialZoomLevel * (currentDistance / initialPinchDistance))))
  else zoomLevel

/-- `fitToScreen()`: subtract a 40-pixel margin from the container's client
size, compare the image's aspect to the container's, and store the binding
axis ratio as the zoom level (no clamping, no quantisation). -/
def fitToScreenZoom (clientWidth clientHeight naturalWidth naturalHeight : ℚ) : ℚ :=
  let containerWidth := clientWidth - 40
  let containerHeight := clientHeight - 40
  let imgR := naturalWidth / naturalHeight
  let containerR := containerWidth / containerHeight
  if containerR < imgR then containerWidth / naturalWidth
  else containerHeight / naturalHeight

/-- The zoom invariant claimed by the specification: the stored level lies
in `[0.2, 4]` and is an integer multiple of `0.1`. -/
def zoomInv (l : ℚ) : Prop := 1/5 ≤ l ∧ l ≤ 4 ∧ ∃ k : ℤ, l = k / 10

lemma jsRound_intCast (k : ℤ) : jsRound (k : ℚ) = k := by
  unfold jsRound
  rw [add_comm, Int.floor_add_int]
  norm_num

lemma roundTenth_int_div (k : ℤ) : roundTenth ((k : ℚ) / 10) = (k : ℚ) / 10 := by
  unfold roundTenth
  rw [div_mul_cancel₀ _ (by norm_num : (10:ℚ) ≠ 0), jsRound_intCast]

lemma roundTenth_bounds {x : ℚ} (h1 : 1/5 ≤ x) (h2 : x ≤ 4) :
    1/5 ≤ roundTenth x ∧ roundTenth x ≤ 4 ∧ ∃ k : ℤ, roundTenth x = k / 10 := by
  have hlo : (2 : ℤ) ≤ jsRound (x * 10) := by
    apply Int.le_floor.mpr
    push_cast
    linarith
  have hhi : jsRound (x * 10) ≤ 40 := by
    have hf : (jsRound (x * 10) : ℚ) ≤ x * 10 + 1/2 := Int.floor_le _
    have h81 : (jsRound (x * 10) : ℚ) < 41 := by linarith
    have h41 : jsRound (x * 10) < 41 := by exact_mod_cast h81
    omega
  refine ⟨?_, ?_, jsRound (x * 10), rfl⟩
  · unfold roundTenth
    have : (2 : ℚ) ≤ (jsRound (x * 10) : ℚ) := by exact_mod_cast hlo
    linarith
  · unfold roundTenth
    have : (jsRound (x * 10) : ℚ) ≤ 40 := by exact_mod_cast hhi
    linarith

lemma zoomInv_elim {l : ℚ} (h : zoomInv l) : ∃ k : ℤ, 2 ≤ k ∧ k ≤ 40 ∧ l = (k : ℚ) / 10 := by
  obtain ⟨h1, h2, k, hk⟩ := h
  refine ⟨k, ?_, ?_, hk⟩
  · have : (2 : ℚ) ≤ (k : ℚ) := by rw [hk] at h1; linarith
    exact_mod_cast this
  · have : (k : ℚ) ≤ 40 := by rw [hk] at h2; linarith
    exact_mod_cast this

lemma zoomInv_intro {k : ℤ} (h1 : 2 ≤ k) (h2 : k ≤ 40) : zoomInv ((k : ℚ) / 10) := by
  refine ⟨?_, ?_, k, rfl⟩
  · have : (2 : ℚ) ≤ (k : ℚ) := by exact_mod_cast h1
    linarith
  · have : (k : ℚ) ≤ 40 := by exact_mod_cast h2
    linarith

lemma zoomIn_eq_of_lt {l : ℚ} (h : zoomInv l) (hl : l < 4) : zoomIn l = l + 1/10 := by
  obtain ⟨k, hk2, _, rfl⟩ := zoomInv_elim h
  have hk39 : k ≤ 39 := by
    have h40 : (k : ℚ) < 40 := by linarith
    have : k < 40 := by exact_mod_cast h40
    omega
  have hmin : min ((k : ℚ) / 10 + 1/10) 4 = ((k + 1 : ℤ) : ℚ) / 10 := by
    rw [min_eq_left]
    · push_cast; ring
    · have : ((k + 1 : ℤ) : ℚ) ≤ 40 := by exact_mod_cast (by omega : k + 1 ≤ (40 : ℤ))
      push_cast at this ⊢
      linarith
  unfold zoomIn
  rw [hmin, roundTenth_int_div]
  push_cast; ring

lemma zoomIn_eq_at_top {l : ℚ} (hl : l = 4) : zoomIn l = l := by
  subst hl
  unfold zoomIn
  rw [min_eq_right (by norm_num : (4:ℚ) ≤ 4 + 1/10)]
  have h4 : (4 : ℚ) = ((40 : ℤ) : ℚ) / 10 := by norm_num
  rw [h4, roundTenth_int_div]

lemma zoomOut_eq_of_gt {l : ℚ} (h : zoomInv l) (hl : 1/5 < l) : zoomOut l = l - 1/10 := by
  obtain ⟨k, _, hk40, rfl⟩ := zoomInv_elim h
  have hk3 : 3 ≤ k := by
    have h2 : (2 : ℚ) < (k : ℚ) := by linarith
    have : (2 : ℤ) < k := by exact_mod_cast h2
    omega
  have hmax : max ((k : ℚ) / 10 - 1/10) (1/5) = ((k - 1 : ℤ) : ℚ) / 10 := by
    rw [max_eq_left]
    · push_cast; ring
    · have : ((2 : ℤ) : ℚ) ≤ ((k - 1 : ℤ) : ℚ) := by exact_mod_cast (by omega : (2:ℤ) ≤ k - 1)
      push_cast at this ⊢
      linarith
  unfold zoomOut
  rw [hmax, roundTenth_int_div]
  push_cast; ring

lemma zoomOut_eq_at_bot {l : ℚ} (hl : l = 1/5) : zoomOut l = l := by
  subst hl
  unfold zoomOut
  rw [max_eq_right (by norm_num : (1:ℚ)/5 - 1/10 ≤ 1/5)]
  have h5 : (1 : ℚ) / 5 = ((2 : ℤ) : ℚ) / 10 := by norm_num
  rw [h5, roundTenth_int_div]

lemma zoomInv_zoomIn {l : ℚ} (h : zoomInv l) : zoomInv (zoomIn l) := by
  rcases lt_or_eq_of_le h.2.1 with hl | hl
  · rw [zoomIn_eq_of_lt h hl]
    obtain ⟨k, hk2, hk40, rfl⟩ := zoomInv_elim h
    have hk39 : k ≤ 39 := by
      have h40 : (k : ℚ) < 40 := by linarith
      have : k < 40 := by exact_mod_cast h40
      omega
    have : (k : ℚ) / 10 + 1/10 = ((k + 1 : ℤ) : ℚ) / 10 := by push_cast; ring
    rw [this]
    exact zoomInv_intro (by omega) (by omega)
  · rw [zoomIn_eq_at_top hl]
    exact h

lemma zoomInv_zoomOut {l : ℚ} (h : zoomInv l) : zoomInv (zoomOut l) := by
  rcases lt_or_eq_of_le h.1 with hl | hl
  · rw [zoomOut_eq_of_gt h hl]
    obtain ⟨k, hk2, hk40, rfl⟩ := zoomInv_elim h
    have hk3 : 3 ≤ k := by
      have h2 : (2 : ℚ) < (k : ℚ) := by linarith
      have : (2 : ℤ) < k := by exact_mod_cast h2
      omega
    have : (k : ℚ) / 10 - 1/10 = ((k - 1 : ℤ) : ℚ) / 10 := by push_cast; ring
    rw [this]
    exact zoomInv_intro (by omega) (by omega)
  · rw [zoomOut_eq_at_bot hl.symm]
    exact h

lemma zoomInv_pinch (zoomLevel z0 d0 d : ℚ) (hd : 0 < d0) :
    zoomInv (pinchUpdate zoomLevel z0 d0 d) := by
  unfold pinchUpdate
  rw [if_pos hd]
  have h1 : 1/5 ≤ max (1/5) (min 4 (z0 * (d / d0))) := le_max_left _ _
  have h2 : max (1/5) (min 4 (z0 * (d / d0))) ≤ 4 :=
    max_le (by norm_num) (min_le_left _ _)
  exact roundTenth_bounds h1 h2

/-- Claim C1, counterexample: `fitToScreen` on a 1000×1000 container with a
700×500 image stores zoom level `48/35`, which is not an integer multiple of
`0.1` — `fitToScreen` neither clamps nor quantises the ratio it computes. -/
theorem fitToScreen_breaks_zoom_quantisation :
    fitToScreenZoom 1000 1000 700 500 = 48/35 ∧ ¬ ∃ k : ℤ, (48/35 : ℚ) = (k : ℚ) / 10 := by
  constructor
  · unfold fitToScreenZoom
    norm_num
  · rintro ⟨k, hk⟩
    have h : (35 * (k : ℚ)) = 480 := by
      field_simp at hk
      linarith
    have h2 : (35 * k : ℤ) = 480 := by exact_mod_cast h
    omega

/-- Claim C1, amended: `zoomIn`, `zoomOut` and the pinch-gesture update keep
the stored zoom level in `[0.2, 4]` and an integer multiple of `0.1`, and
`zoomIn`/`zoomOut` change the level by exactly `±0.1` except at the bound
they are stepping toward, where they leave it unchanged.  (`fitToScreen` is
excluded: it stores the raw fit ratio, see the counterexample.) -/
theorem zoom_ops_preserve_invariant (l z0 d0 d : ℚ) (hl : zoomInv l) (hd : 0 < d0) :
    zoomInv (zoomIn l) ∧ zoomInv (zoomOut l) ∧ zoomInv (pinchUpdate l z0 d0 d) ∧
    (l < 4 → zoomIn l = l + 1/10) ∧ (l = 4 → zoomIn l = l) ∧
    (1/5 < l → zoomOut l = l - 1/10) ∧ (l = 1/5 → zoomOut l = l) :=
  ⟨zoomInv_zoomIn hl, zoomInv_zoomOut hl, zoomInv_pinch l z0 d0 d hd,
   fun h => zoomIn_eq_of_lt hl h, fun h => zoomIn_eq_at_top h,
   fun h => zoomOut_eq_of_gt hl h, fun h => zoomOut_eq_at_bot h⟩

/-- Witness for `zoom_ops_preserve_invariant` at zoom level 1 with a pinch
that doubles the finger distance. -/
theorem zoom_ops_preserve_invariant_witness :
    zoomInv (zoomIn 1) ∧ zoomInv (zoomOut 1) ∧ zoomInv (pinchUpdate 1 1 2 4) ∧
    ((1 : ℚ) < 4 → zoomIn 1 = 1 + 1/10) ∧ ((1 : ℚ) = 4 → zoomIn 1 = 1) ∧
    ((1 : ℚ)/5 < 1 → zoomOut 1 = 1 - 1/10) ∧ ((1 : ℚ) = 1/5 → zoomOut 1 = 1) :=
  zoom_ops_preserve_invariant 1 1 2 4 ⟨by norm_num, by norm_num, 10, by norm_num⟩ (by norm_num)

/-- The specification's formulation of the fit-to-screen computation: the
minimum of the two candidate scale factors after removing the margin. -/
def computeFitZoomSpec (clientWidth clientHeight naturalWidth naturalHeight : ℚ) : ℚ :=
  min ((clientWidth - 40) / naturalWidth) ((clientHeight - 40) / naturalHeight)

/-- Claim C6: for positive post-margin container dimensions and positive
natural image dimensions, the aspect-ratio comparison in `fitToScreen`
computes exactly the minimum of the width-bound and height-bound scale
factors; and on container `(1000, 500)` with content `(2000, 500)` the
width-bound ratio `(1000 - 40) / 2000` is the one chosen. -/
theorem fitToScreen_eq_min_candidates (cw ch nw nh : ℚ)
    (hcw : 40 < cw) (hch : 40 < ch) (hnw : 0 < nw) (hnh : 0 < nh) :
    fitToScreenZoom cw ch nw nh = computeFitZoomSpec cw ch nw nh ∧
    fitToScreenZoom 1000 500 2000 500 = (1000 - 40) / 2000 := by
  constructor
  · have hb : (0 : ℚ) < ch - 40 := by linarith
    unfold fitToScreenZoom computeFitZoomSpec
    by_cases hcmp : (cw - 40) / (ch - 40) < nw / nh
    · rw [if_pos hcmp, eq_comm, min_eq_left]
      rw [div_lt_div_iff hb hnh] at hcmp
      rw [div_le_div_iff hnw hnh]
      nlinarith
    · rw [if_neg hcmp, eq_comm, min_eq_right]
      rw [not_lt, div_le_div_iff hnh hb] at hcmp
      rw [div_le_div_iff hnh hnw]
      nlinarith
  · unfold fitToScreenZoom
    norm_num

/-- Witness for `fitToScreen_eq_min_candidates` at the specification's own
example sizes. -/
theorem fitToScreen_eq_min_candidates_witness :
    fitToScreenZoom 1000 500 2000 500 = computeFitZoomSpec 1000 500 2000 500 ∧
    fitToScreenZoom 1000 500 2000 500 = (1000 - 40) / 2000 :=
  fitToScreen_eq_min_candidates 1000 500 2000 500 (by norm_num) (by norm_num)
    (by norm_num) (by norm_num)

/-- The bounding client rectangle of the displayed canvas, as reported by
`getBoundingClientRect()`. -/
structure DomRect where
  left : ℚ
  top : ℚ
  width : ℚ
  height : ℚ

/-- A pointer event as consumed by `getCanvasCoords`: either a touch event
carrying its list of touch points, or a mouse event with client
coordinates. -/
inductive PointerEvent where
  | touch (touches : List (ℚ × ℚ))
  | mouse (clientX clientY : ℚ)

/-- The client-coordinate extraction at the top of `getCanvasCoords`: the
first touch point when one exists, the mouse coordinates otherwise, and no
point at all in the fallback case. -/
def clientPoint : PointerEvent → Option (ℚ × ℚ)
  | .touch (t :: _) => some t
  | .touch [] => none
  | .mouse x y => some (x, y)

/-- `getCanvasCoords(e)`: subtract the bounding-rectangle origin and scale
by `canvas.width / rect.width` and `canvas.height / rect.height`; the
fallback branch returns `(0, 0)`. -/
def getCanvasCoords (canvasWidth canvasHeight : ℚ) (rect : DomRect) (e : PointerEvent) : ℚ × ℚ :=
  match clientPoint e with
  | none => (0, 0)
  | some (clientX, clientY) =>
    let scaleX := canvasWidth / rect.width
    let scaleY := canvasHeight / rect.height
    ((clientX - rect.left) * scaleX, (clientY - rect.top) * scaleY)

/-- Claim C7: for a rectangle of positive size, `getCanvasCoords` returns
`((clientX - rect.left) * canvasW / rect.width, (clientY - rect.top) *
canvasH / rect.height)`; the displayed top-left corner maps to `(0, 0)`,
the displayed bottom-right corner maps to `(canvasW, canvasH)`, and in
particular an 800×600 canvas displayed at 400×300 maps its bottom-right
corner to `(800, 600)`. -/
theorem getCanvasCoords_inverts_display_scale
    (cw ch x y : ℚ) (rect : DomRect) (hw : 0 < rect.width) (hh : 0 < rect.height) :
    getCanvasCoords cw ch rect (.mouse x y) =
      ((x - rect.left) * (cw / rect.width), (y - rect.top) * (ch / rect.height)) ∧
    getCanvasCoords cw ch rect (.mouse rect.left rect.top) = (0, 0) ∧
    getCanvasCoords cw ch rect (.mouse (rect.left + rect.width) (rect.top + rect.height)) =
      (cw, ch) ∧
    getCanvasCoords 800 600 ⟨0, 0, 400, 300⟩ (.mouse 400 300) = (800, 600) := by
  refine ⟨rfl, ?_, ?_, by norm_num [getCanvasCoords, clientPoint]⟩
  · show ((rect.left - rect.left) * (cw / rect.width),
      (rect.top - rect.top) * (ch / rect.height)) = (0, 0)
    simp
  · show ((rect.left + rect.width - rect.left) * (cw / rect.width),
      (rect.top + rect.height - rect.top) * (ch / rect.height)) = (cw, ch)
    have h1 : rect.left + rect.width - rect.left = rect.width := by ring
    have h2 : rect.top + rect.height - rect.top = rect.height := by ring
    rw [h1, h2, Prod.mk.injEq]
    constructor
    · field_simp
    · field_simp

/-- Witness for `getCanvasCoords_inverts_display_scale` on the 800×600
canvas displayed at 400×300. -/
theorem getCanvasCoords_inverts_display_scale_witness :
    getCanvasCoords 800 600 ⟨0, 0, 400, 300⟩ (.mouse 100 50) =
      ((100 - (0:ℚ)) * (800 / 400), (50 - (0:ℚ)) * (600 / 300)) ∧
    getCanvasCoords 800 600 ⟨0, 0, 400, 300⟩ (.mouse 0 0) = (0, 0) ∧
    getCanvasCoords 800 600 ⟨0, 0, 400, 300⟩ (.mouse ((0:ℚ) + 400) ((0:ℚ) + 300)) = (800, 600) ∧
    getCanvasCoords 800 600 ⟨0, 0, 400, 300⟩ (.mouse 400 300) = (800, 600) :=
  getCanvasCoords_inverts_display_scale 800 600 100 50 ⟨0, 0, 400, 300⟩
    (by norm_num) (by norm_num)

/-- The slice of the viewer state read and written by the page-navigation
functions. -/
structure ViewerState where
  currentPage : ℕ
  totalPages : ℕ

/-- `prevPage()`: decrement `currentPage` only when it is above 1. -/
def prevPage (s : ViewerState) : ViewerState :=
  if 1 < s.currentPage then { s with currentPage := s.currentPage - 1 } else s

/-- `nextPage()`: increment `currentPage` only when it is below
`total_pages`. -/
def nextPage (s : ViewerState) : ViewerState :=
  if s.currentPage < s.totalPages then { s with currentPage := s.currentPage + 1 } else s

/-- Claim C3: with `1 ≤ currentPage ≤ totalPages`, `prevPage` is a no-op at
page 1 and otherwise steps to the previous page, `nextPage` is a no-op at
the last page and otherwise steps to the next page, and both preserve the
page-bounds invariant (rejecting rather than clamping). -/
theorem page_navigation_bounds (s : ViewerState)
    (h1 : 1 ≤ s.currentPage) (h2 : s.currentPage ≤ s.totalPages) :
    (s.currentPage = 1 → prevPage s = s) ∧
    (1 < s.currentPage → prevPage s = { s with currentPage := s.currentPage - 1 }) ∧
    (s.currentPage = s.totalPages → nextPage s = s) ∧
    (s.currentPage < s.totalPages → nextPage s = { s with currentPage := s.currentPage + 1 }) ∧
    (1 ≤ (prevPage s).currentPage ∧ (prevPage s).currentPage ≤ s.totalPages) ∧
    (1 ≤ (nextPage s).currentPage ∧ (nextPage s).currentPage ≤ s.totalPages) := by
  unfold prevPage nextPage
  refine ⟨fun h => ?_, fun h => ?_, fun h => ?_, fun h => ?_, ?_, ?_⟩
  · rw [if_neg (by omega)]
  · rw [if_pos h]
  · rw [if_neg (by omega)]
  · rw [if_pos h]
  · by_cases h : 1 < s.currentPage
    · rw [if_pos h]
      exact ⟨show 1 ≤ s.currentPage - 1 by omega,
        show s.currentPage - 1 ≤ s.totalPages by omega⟩
    · rw [if_neg h]
      exact ⟨h1, h2⟩
  · by_cases h : s.currentPage < s.totalPages
    · rw [if_pos h]
      exact ⟨show 1 ≤ s.currentPage + 1 by omega,
        show s.currentPage + 1 ≤ s.totalPages by omega⟩
    · rw [if_neg h]
      exact ⟨h1, h2⟩

/-- Witness for `page_navigation_bounds` at page 2 of 3. -/
theorem page_navigation_bounds_witness :
    ((⟨2, 3⟩ : ViewerState).currentPage = 1 → prevPage ⟨2, 3⟩ = ⟨2, 3⟩) ∧
    (1 < (⟨2, 3⟩ : ViewerState).currentPage → prevPage ⟨2, 3⟩ = ⟨1, 3⟩) ∧
    ((⟨2, 3⟩ : ViewerState).currentPage = (⟨2, 3⟩ : ViewerState).totalPages →
      nextPage ⟨2, 3⟩ = ⟨2, 3⟩) ∧
    ((⟨2, 3⟩ : ViewerState).currentPage < (⟨2, 3⟩ : ViewerState).totalPages →
      nextPage ⟨2, 3⟩ = ⟨3, 3⟩) ∧
    (1 ≤ (prevPage ⟨2, 3⟩).currentPage ∧ (prevPage ⟨2, 3⟩).currentPage ≤ 3) ∧
    (1 ≤ (nextPage ⟨2, 3⟩).currentPage ∧ (nextPage ⟨2, 3⟩).currentPage ≤ 3) :=
  page_navigation_bounds ⟨2, 3⟩ (by decide) (by decide)

/-- The per-exercise answer object `state.pageAnswers[exerciseName]`,
modelled as an association list from question number to the stored field
value; a present key with value `none` would be a stored null marker, a
present key with `some o` stores option letter `o`, and an absent key is an
unanswered question. -/
abbrev AnswerMap := List (ℕ × Option String)

/-- The keys of a JavaScript object are unique. -/
def keysNodup (m : AnswerMap) : Prop := (m.map Prod.fst).Nodup

/-- Property read `obj[q]`: `some v` when the key is present with field
value `v`, `none` when absent. -/
def getKey (m : AnswerMap) (q : ℕ) : Option (Option String) := m.lookup q

/-- Property write `obj[q] = v`: overwrite in place when the key is
present, append otherwise (JavaScript object insertion order). -/
def setKey : AnswerMap → ℕ → Option String → AnswerMap
  | [], q, v => [(q, v)]
  | (a, w) :: t, q, v => if a = q then (a, v) :: t else (a, w) :: setKey t q v

/-- `delete obj[q]`: remove the key entirely. -/
def delKey (m : AnswerMap) (q : ℕ) : AnswerMap := m.filter (fun p => p.1 != q)

/-- `selectOption(questionNum, option)` restricted to the current
exercise's answer object: toggle off when the stored answer strictly equals
the clicked option, otherwise store the clicked option. -/
def selectOption (m : AnswerMap) (q : ℕ) (o : String) : AnswerMap :=
  if m.lookup q = some (some o) then delKey m q else setKey m q (some o)

lemma delKey_cons_self (a : ℕ) (w : Option String) (t : AnswerMap) :
    delKey ((a, w) :: t) a = delKey t a := by
  simp [delKey, List.filter_cons]

lemma delKey_cons_ne {a q : ℕ} (h : a ≠ q) (w : Option String) (t : AnswerMap) :
    delKey ((a, w) :: t) q = (a, w) :: delKey t q := by
  simp [delKey, List.filter_cons, h]

lemma lookup_cons_ne {k a : ℕ} (h : a ≠ k) (b : Option String) (es : AnswerMap) :
    ((k, b) :: es).lookup a = es.lookup a := by
  rw [List.lookup_cons]
  have hb : (a == k) = false := beq_eq_false_iff_ne.mpr h
  rw [hb]

lemma setKey_cons_self (a : ℕ) (w v : Option String) (t : AnswerMap) :
    setKey ((a, w) :: t) a v = (a, v) :: t := by
  simp [setKey]

lemma setKey_cons_ne {a q : ℕ} (h : a ≠ q) (w v : Option String) (t : AnswerMap) :
    setKey ((a, w) :: t) q v = (a, w) :: setKey t q v := by
  simp [setKey, h]

lemma lookup_delKey_self (m : AnswerMap) (q : ℕ) : (delKey m q).lookup q = none := by
  induction m with
  | nil => rfl
  | cons p t ih =>
    obtain ⟨a, w⟩ := p
    by_cases h : a = q
    · subst h
      rw [delKey_cons_self]
      exact ih
    · rw [delKey_cons_ne h, lookup_cons_ne (fun hq => h hq.symm)]
      exact ih

lemma not_mem_delKey (m : AnswerMap) (q : ℕ) (v : Option String) : (q, v) ∉ delKey m q := by
  intro hmem
  have := (List.mem_filter.mp hmem).2
  simp at this

lemma lookup_delKey_ne (m : AnswerMap) {q r : ℕ} (h : r ≠ q) :
    (delKey m q).lookup r = m.lookup r := by
  induction m with
  | nil => rfl
  | cons p t ih =>
    obtain ⟨a, w⟩ := p
    by_cases ha : a = q
    · subst ha
      rw [delKey_cons_self, lookup_cons_ne h]
      exact ih
    · rw [delKey_cons_ne ha]
      by_cases hr : r = a
      · subst hr
        simp
      · rw [lookup_cons_ne hr, lookup_cons_ne hr]
        exact ih

lemma lookup_setKey_self (m : AnswerMap) (q : ℕ) (v : Option String) :
    (setKey m q v).lookup q = some v := by
  induction m with
  | nil => simp [setKey]
  | cons p t ih =>
    obtain ⟨a, w⟩ := p
    by_cases h : a = q
    · subst h
      rw [setKey_cons_self]
      simp
    · rw [setKey_cons_ne h, lookup_cons_ne (fun hq => h hq.symm)]
      exact ih

lemma lookup_setKey_ne (m : AnswerMap) {q r : ℕ} (v : Option String) (h : r ≠ q) :
    (setKey m q v).lookup r = m.lookup r := by
  induction m with
  | nil =>
    show ((q, v) :: ([] : AnswerMap)).lookup r = ([] : AnswerMap).lookup r
    rw [lookup_cons_ne h]
  | cons p t ih =>
    obtain ⟨a, w⟩ := p
    by_cases ha : a = q
    · subst ha
      rw [setKey_cons_self, lookup_cons_ne h, lookup_cons_ne h]
    · rw [setKey_cons_ne ha]
      by_cases hr : r = a
      · subst hr
        simp
      · rw [lookup_cons_ne hr, lookup_cons_ne hr]
        exact ih

lemma mem_keys_setKey {m : AnswerMap} {q r : ℕ} {v : Option String}
    (h : r ∈ (setKey m q v).map Prod.fst) : r ∈ m.map Prod.fst ∨ r = q := by
  induction m with
  | nil =>
    right
    simpa [setKey] using h
  | cons p t ih =>
    obtain ⟨a, w⟩ := p
    by_cases ha : a = q
    · subst ha
      rw [setKey_cons_self] at h
      simp only [List.map_cons, List.mem_cons] at h ⊢
      exact Or.inl h
    · rw [setKey_cons_ne ha] at h
      simp only [List.map_cons, List.mem_cons] at h ⊢
      rcases h with h | h
      · exact Or.inl (Or.inl h)
      · rcases ih h with h' | h'
        · exact Or.inl (Or.inr h')
        · exact Or.inr h'

lemma keysNodup_setKey {m : AnswerMap} (q : ℕ) (v : Option String)
    (hm : keysNodup m) : keysNodup (setKey m q v) := by
  induction m with
  | nil => simp [keysNodup, setKey]
  | cons p t ih =>
    obtain ⟨a, w⟩ := p
    rw [keysNodup, List.map_cons, List.nodup_cons] at hm
    by_cases ha : a = q
    · subst ha
      rw [keysNodup, setKey_cons_self, List.map_cons, List.nodup_cons]
      exact hm
    · rw [keysNodup, setKey_cons_ne ha, List.map_cons, List.nodup_cons]
      refine ⟨fun hmem => ?_, ih hm.2⟩
      rcases mem_keys_setKey hmem with h' | h'
      · exact hm.1 h'
      · exact ha h'

lemma keysNodup_delKey (m : AnswerMap) (q : ℕ) (hm : keysNodup m) :
    keysNodup (delKey m q) := by
  unfold keysNodup delKey
  exact ((List.filter_sublist m).map Prod.fst).nodup hm

/-- Claim C2: `selectOption` implements toggle semantics on the exercise's
answer object — re-selecting the stored option deletes the question's entry
outright (no null marker remains), selecting any other option overwrites,
key uniqueness is preserved, and other questions' entries are untouched. -/
theorem selectOption_toggle (m : AnswerMap) (q : ℕ) (o : String) (hm : keysNodup m) :
    keysNodup (selectOption m q o) ∧
    (getKey m q = some (some o) →
      getKey (selectOption m q o) q = none ∧ ∀ v, (q, v) ∉ selectOption m q o) ∧
    (getKey m q ≠ some (some o) → getKey (selectOption m q o) q = some (some o)) ∧
    (∀ r, r ≠ q → getKey (selectOption m q o) r = getKey m r) := by
  unfold selectOption getKey
  by_cases h : m.lookup q = some (some o)
  · rw [if_pos h]
    exact ⟨keysNodup_delKey m q hm,
      fun _ => ⟨lookup_delKey_self m q, fun v => not_mem_delKey m q v⟩,
      fun hne => absurd h hne,
      fun r hr => lookup_delKey_ne m hr⟩
  · rw [if_neg h]
    exact ⟨keysNodup_setKey q (some o) hm,
      fun hc => absurd hc h,
      fun _ => lookup_setKey_self m q (some o),
      fun r hr => lookup_setKey_ne m (some o) hr⟩

/-- Witness for `selectOption_toggle`: toggling question 1 off and
re-answering question 2 on a two-question map. -/
theorem selectOption_toggle_witness :
    (keysNodup (selectOption [(1, some "A"), (2, some "B")] 1 "A") ∧
      (getKey [(1, some "A"), (2, some "B")] 1 = some (some "A") →
        getKey (selectOption [(1, some "A"), (2, some "B")] 1 "A") 1 = none ∧
        ∀ v, (1, v) ∉ selectOption [(1, some "A"), (2, some "B")] 1 "A") ∧
      (getKey [(1, some "A"), (2, some "B")] 1 ≠ some (some "A") →
        getKey (selectOption [(1, some "A"), (2, some "B")] 1 "A") 1 = some (some "A")) ∧
      (∀ r, r ≠ 1 →
        getKey (selectOption [(1, some "A"), (2, some "B")] 1 "A") r =
          getKey [(1, some "A"), (2, some "B")] r)) :=
  selectOption_toggle [(1, some "A"), (2, some "B")] 1 "A"
    (show (([(1, some "A"), (2, some "B")] : AnswerMap).map Prod.fst).Nodup by decide)

/-- The aggregate `state.stats` counters. -/
structure Stats where
  correct : ℕ
  incorrect : ℕ
deriving DecidableEq

/-- One committed per-page answer record, as stored in
`state.answeredPages[exerciseName][pageKey]`. -/
structure AnsweredPage where
  selected : String
  correct : Option String
  wasCorrect : Option Bool
deriving DecidableEq

/-- The slice of the global `state` object read and written by
`selectAnswer`.  The answer key `state.answers` is indexed by category,
exercise name and page; `state.answeredPages` by exercise name and page. -/
structure AppState where
  currentCategory : String
  currentExercise : String
  currentPage : ℕ
  answers : String → String → ℕ → Option String
  answeredPages : String → ℕ → Option AnsweredPage
  stats : Stats

/-- `selectAnswer(answer)`: reject when the page already has a record;
otherwise look up the answer key, uppercase the key letter, judge
correctness by strict comparison of the selected letter with the
uppercased key letter (`null` when no key entry exists), bump the matching
stats counter, and store the committed record for the current page. -/
def selectAnswer (st : AppState) (answer : String) : AppState :=
  let exerciseName := st.currentExercise
  let categoryName := st.currentCategory
  let pageKey := st.currentPage
  if (st.answeredPages exerciseName pageKey).isSome then st
  else
    let correctAnswer : Option String :=
      (st.answers categoryName exerciseName pageKey).map String.toUpper
    let isCorrect : Option Bool := correctAnswer.map (fun c => answer == c)
    let newStats : Stats :=
      match isCorrect with
      | some true => { correct := st.stats.correct + 1, incorrect := st.stats.incorrect }
      | some false => { correct := st.stats.correct, incorrect := st.stats.incorrect + 1 }
      | none => st.stats
    { st with
      stats := newStats
      answeredPages := fun ex pk =>
        if ex = exerciseName ∧ pk = pageKey then
          some { selected := answer, correct := correctAnswer, wasCorrect := isCorrect }
        else st.answeredPages ex pk }

lemma selectAnswer_fields (st : AppState) (a : String) :
    (selectAnswer st a).currentCategory = st.currentCategory ∧
    (selectAnswer st a).currentExercise = st.currentExercise ∧
    (selectAnswer st a).currentPage = st.currentPage ∧
    (selectAnswer st a).answers = st.answers := by
  unfold selectAnswer
  by_cases h : (st.answeredPages st.currentExercise st.currentPage).isSome
  · rw [if_pos h]
    exact ⟨rfl, rfl, rfl, rfl⟩
  · rw [if_neg h]
    exact ⟨rfl, rfl, rfl, rfl⟩

lemma selectAnswer_guard (st : AppState) (a : String)
    (h : (st.answeredPages st.currentExercise st.currentPage).isSome) :
    selectAnswer st a = st := by
  unfold selectAnswer
  rw [if_pos h]

lemma selectAnswer_record (st : AppState) (a : String)
    (h : st.answeredPages st.currentExercise st.currentPage = none) :
    (selectAnswer st a).answeredPages st.currentExercise st.currentPage =
      some { selected := a,
             correct := (st.answers st.currentCategory st.currentExercise st.currentPage).map
               String.toUpper,
             wasCorrect := ((st.answers st.currentCategory st.currentExercise
               st.currentPage).map String.toUpper).map (fun c => a == c) } := by
  unfold selectAnswer
  rw [if_neg (by rw [h]; simp)]
  show (if st.currentExercise = st.currentExercise ∧ st.currentPage = st.currentPage then _
    else _) = _
  rw [if_pos ⟨rfl, rfl⟩]

/-- Claim C4: after a first `selectAnswer` commits a record for the
current page, any subsequent `selectAnswer` on the same page returns early
and leaves the whole state — the stored record, the `answeredPages` map and
the stats counters — exactly as the first commit left them. -/
theorem selectAnswer_rejects_recommit (st : AppState) (b c : String)
    (h : st.answeredPages st.currentExercise st.currentPage = none) :
    ((selectAnswer st b).answeredPages st.currentExercise st.currentPage).isSome ∧
    selectAnswer (selectAnswer st b) c = selectAnswer st b := by
  have hrec := selectAnswer_record st b h
  have hfields := selectAnswer_fields st b
  constructor
  · rw [hrec]
    rfl
  · apply selectAnswer_guard
    rw [hfields.2.1, hfields.2.2.1, hrec]
    rfl

/-- A concrete state: category "Verbal", exercise "Ex1", page 1, an answer
key holding letter "B" for that page, nothing answered yet. -/
def sampleState : AppState where
  currentCategory := "Verbal"
  currentExercise := "Ex1"
  currentPage := 1
  answers := fun cat ex pk => if cat = "Verbal" ∧ ex = "Ex1" ∧ pk = 1 then some "B" else none
  answeredPages := fun _ _ => none
  stats := ⟨0, 0⟩

/-- Witness for `selectAnswer_rejects_recommit`: commit "B" on page 1 of
`sampleState`, then try to commit "C". -/
theorem selectAnswer_rejects_recommit_witness :
    ((selectAnswer sampleState "B").answeredPages sampleState.currentExercise
      sampleState.currentPage).isSome ∧
    selectAnswer (selectAnswer sampleState "B") "C" = selectAnswer sampleState "B" :=
  selectAnswer_rejects_recommit sampleState "B" "C" rfl

/-- Claim C5, counterexample: with answer-key letter "B", committing the
lowercase selection "b" is judged incorrect (`wasCorrect = false`) even
though the two letters are equal ignoring case — only the key letter is
uppercased, never the selection. -/
theorem selectAnswer_lowercase_selection_judged_incorrect :
    "b".toUpper = "B".toUpper ∧
    ((selectAnswer sampleState "b").answeredPages "Ex1" 1).map AnsweredPage.wasCorrect =
      some (some false) := by
  have hBup : "B".toUpper = "B" := by
    simp only [String.toUpper, String.map_eq]
    decide
  have hbup : "b".toUpper = "B" := by
    simp only [String.toUpper, String.map_eq]
    decide
  refine ⟨hbup.trans hBup.symm, ?_⟩
  show ((selectAnswer sampleState "b").answeredPages sampleState.currentExercise
      sampleState.currentPage).map AnsweredPage.wasCorrect = some (some false)
  rw [selectAnswer_record sampleState "b" rfl]
  show some ((some "B".toUpper).map (fun c => "b" == c)) = some (some false)
  rw [hBup]
  decide

/-- Claim C5, amended: when the page has no record yet and the answer key
holds letter `k`, the committed record judges correctness by comparing the
selected letter, unchanged, against the uppercased key letter: `wasCorrect
= (selected == k.toUpper)`.  The comparison is therefore case-insensitive
in the key letter but case-sensitive in the selected letter. -/
theorem selectAnswer_correctness_vs_uppercased_key (st : AppState) (a k : String)
    (hrec : st.answeredPages st.currentExercise st.currentPage = none)
    (hkey : st.answers st.currentCategory st.currentExercise st.currentPage = some k) :
    (selectAnswer st a).answeredPages st.currentExercise st.currentPage =
      some { selected := a, correct := some k.toUpper,
             wasCorrect := some (a == k.toUpper) } := by
  rw [selectAnswer_record st a hrec, hkey]
  rfl

/-- Witness for `selectAnswer_correctness_vs_uppercased_key`: committing
the uppercase selection "B" against key letter "B". -/
theorem selectAnswer_correctness_vs_uppercased_key_witness :
    (selectAnswer sampleState "B").answeredPages sampleState.currentExercise
      sampleState.currentPage =
      some { selected := "B", correct := some "B".toUpper,
             wasCorrect := some ("B" == "B".toUpper) } :=
  selectAnswer_correctness_vs_uppercased_key sampleState "B" "B" rfl rfl

/-- Claim C9: committing an answer for a page with no answer-key entry
still stores a record, with `correct` and `wasCorrect` both null, and
leaves both stats counters untouched. -/
theorem selectAnswer_no_key_entry (st : AppState) (a : String)
    (hrec : st.answeredPages st.currentExercise st.currentPage = none)
    (hkey : st.answers st.currentCategory st.currentExercise st.currentPage = none) :
    (selectAnswer st a).answeredPages st.currentExercise st.currentPage =
      some { selected := a, correct := none, wasCorrect := none } ∧
    (selectAnswer st a).stats = st.stats := by
  constructor
  · rw [selectAnswer_record st a hrec, hkey]
    rfl
  · unfold selectAnswer
    rw [if_neg (by rw [hrec]; simp)]
    show (match ((st.answers st.currentCategory st.currentExercise st.currentPage).map
      String.toUpper).map (fun c => a == c) with
      | some true => ({ correct := st.stats.correct + 1, incorrect := st.stats.incorrect } : Stats)
      | some false => { correct := st.stats.correct, incorrect := st.stats.incorrect + 1 }
      | none => st.stats) = st.stats
    rw [hkey]
    rfl

/-- A concrete state like `sampleState` but with an empty answer key. -/
def noKeyState : AppState where
  currentCategory := "Verbal"
  currentExercise := "Ex1"
  currentPage := 1
  answers := fun _ _ _ => none
  answeredPages := fun _ _ => none
  stats := ⟨3, 5⟩

/-- Witness for `selectAnswer_no_key_entry` on `noKeyState`. -/
theorem selectAnswer_no_key_entry_witness :
    (selectAnswer noKeyState "A").answeredPages noKeyState.currentExercise
      noKeyState.currentPage =
      some { selected := "A", correct := none, wasCorrect := none } ∧
    (selectAnswer noKeyState "A").stats = noKeyState.stats :=
  selectAnswer_no_key_entry noKeyState "A" rfl rfl

/-- The persistence key used for freehand-drawing snapshots:
`` `${state.currentExercise.name}_${state.currentPage}` ``. -/
def drawingKey (exerciseName : String) (page : ℕ) : String :=
  exerciseName ++ "_" ++ Nat.repr page

/-- `saveDrawing()`: store the canvas snapshot under the current
exercise/page key, leaving every other key alone. -/
def saveDrawing (savedDrawings : String → Option String) (exerciseName : String) (page : ℕ)
    (dataUrl : String) : String → Option String :=
  fun k => if k = drawingKey exerciseName page then some dataUrl else savedDrawings k

/-- `restoreDrawing()`: read the snapshot stored under the current
exercise/page key. -/
def restoreDrawing (savedDrawings : String → Option String) (exerciseName : String)
    (page : ℕ) : Option String :=
  savedDrawings (drawingKey exerciseName page)

lemma toDigitsCore_append (fuel n : ℕ) (ds : List Char) :
    Nat.toDigitsCore 10 fuel n ds = Nat.toDigitsCore 10 fuel n [] ++ ds := by
  induction fuel generalizing n ds with
  | zero => rfl
  | succ f ih =>
    simp only [Nat.toDigitsCore]
    by_cases h : n / 10 = 0
    · simp [h]
    · rw [if_neg h, if_neg h, ih (n / 10) (Nat.digitChar (n % 10) :: ds),
        ih (n / 10) [Nat.digitChar (n % 10)], List.append_assoc]
      rfl

lemma toDigitsCore_fuel {n : ℕ} : ∀ {f1 f2 : ℕ}, n < f1 → n < f2 →
    Nat.toDigitsCore 10 f1 n [] = Nat.toDigitsCore 10 f2 n [] := by
  induction n using Nat.strong_induction_on with
  | _ n ih =>
    intro f1 f2 h1 h2
    obtain ⟨a, rfl⟩ : ∃ a, f1 = a + 1 := ⟨f1 - 1, by omega⟩
    obtain ⟨b, rfl⟩ : ∃ b, f2 = b + 1 := ⟨f2 - 1, by omega⟩
    simp only [Nat.toDigitsCore]
    by_cases h : n / 10 = 0
    · simp [h]
    · rw [if_neg h, if_neg h, toDigitsCore_append a (n / 10) [Nat.digitChar (n % 10)],
        toDigitsCore_append b (n / 10) [Nat.digitChar (n % 10)]]
      have hn : n / 10 < n := Nat.div_lt_self (by omega) (by norm_num)
      have ha : n / 10 < a := lt_of_lt_of_le hn (Nat.lt_succ_iff.mp h1)
      have hb : n / 10 < b := lt_of_lt_of_le hn (Nat.lt_succ_iff.mp h2)
      rw [ih (n / 10) hn ha hb]

lemma toDigits_eq_rec (n : ℕ) :
    Nat.toDigits 10 n = if n < 10 then [Nat.digitChar n]
      else Nat.toDigits 10 (n / 10) ++ [Nat.digitChar (n % 10)] := by
  by_cases h : n < 10
  · rw [if_pos h]
    show Nat.toDigitsCore 10 (n + 1) n [] = _
    simp only [Nat.toDigitsCore]
    rw [if_pos (Nat.div_eq_of_lt h), Nat.mod_eq_of_lt h]
  · rw [if_neg h]
    show Nat.toDigitsCore 10 (n + 1) n [] = _
    simp only [Nat.toDigitsCore]
    have h0 : n / 10 ≠ 0 := by omega
    rw [if_neg h0, toDigitsCore_append n (n / 10) [Nat.digitChar (n % 10)]]
    congr 1
    exact toDigitsCore_fuel (Nat.div_lt_self (by omega) (by norm_num)) (Nat.lt_succ_self _)

/-- The numeric value of a most-significant-digit-first list of decimal
digit characters. -/
def digitsVal (l : List Char) : ℕ := l.foldl (fun a c => 10 * a + (c.toNat - 48)) 0

lemma digitChar_toNat_sub (m : ℕ) (h : m < 10) : (Nat.digitChar m).toNat - 48 = m := by
  interval_cases m <;> rfl

lemma digitChar_ne_underscore (m : ℕ) (h : m < 10) : Nat.digitChar m ≠ '_' := by
  interval_cases m <;> decide

lemma digitsVal_toDigits (n : ℕ) : digitsVal (Nat.toDigits 10 n) = n := by
  induction n using Nat.strong_induction_on with
  | _ n ih =>
    rw [toDigits_eq_rec]
    by_cases h : n < 10
    · rw [if_pos h]
      show 10 * 0 + ((Nat.digitChar n).toNat - 48) = n
      rw [digitChar_toNat_sub n h]
      omega
    · rw [if_neg h]
      unfold digitsVal
      rw [List.foldl_append]
      show 10 * digitsVal (Nat.toDigits 10 (n / 10)) + ((Nat.digitChar (n % 10)).toNat - 48) = n
      rw [ih (n / 10) (Nat.div_lt_self (by omega) (by norm_num)),
        digitChar_toNat_sub (n % 10) (Nat.mod_lt _ (by norm_num))]
      omega

lemma toDigits_ne_underscore (n : ℕ) : ∀ c ∈ Nat.toDigits 10 n, c ≠ '_' := by
  induction n using Nat.strong_induction_on with
  | _ n ih =>
    rw [toDigits_eq_rec]
    by_cases h : n < 10
    · rw [if_pos h]
      intro c hc
      rw [List.mem_singleton] at hc
      subst hc
      exact digitChar_ne_underscore n h
    · rw [if_neg h]
      intro c hc
      rcases List.mem_append.mp hc with hc | hc
      · exact ih (n / 10) (Nat.div_lt_self (by omega) (by norm_num)) c hc
      · rw [List.mem_singleton] at hc
        subst hc
        exact digitChar_ne_underscore _ (Nat.mod_lt _ (by norm_num))

lemma toDigits_inj {m n : ℕ} (h : Nat.toDigits 10 m = Nat.toDigits 10 n) : m = n := by
  have hv := congrArg digitsVal h
  rwa [digitsVal_toDigits, digitsVal_toDigits] at hv

lemma repr_data (n : ℕ) : (Nat.repr n).data = Nat.toDigits 10 n := rfl

lemma repr_inj {m n : ℕ} (h : Nat.repr m = Nat.repr n) : m = n := by
  apply toDigits_inj
  rw [← repr_data, ← repr_data, h]

lemma split_at_last_underscore {a s : List Char} :
    ∀ {b t : List Char}, (∀ c ∈ s, c ≠ '_') → (∀ c ∈ t, c ≠ '_') →
    a ++ '_' :: s = b ++ '_' :: t → a = b ∧ s = t := by
  induction a with
  | nil =>
    intro b t hs ht h
    cases b with
    | nil =>
      rw [List.nil_append, List.nil_append] at h
      exact ⟨rfl, by injection h⟩
    | cons c b2 =>
      rw [List.nil_append] at h
      injection h with h1 h2
      exfalso
      apply hs '_'
      · rw [h2]
        exact List.mem_append_right _ (List.mem_cons_self _ _)
      · rfl
  | cons c a2 ih =>
    intro b t hs ht h
    cases b with
    | nil =>
      rw [List.nil_append] at h
      injection h with h1 h2
      exfalso
      apply ht '_'
      · rw [← h2]
        exact List.mem_append_right _ (List.mem_cons_self _ _)
      · rfl
    | cons c2 b2 =>
      injection h with h1 h2
      obtain ⟨hab, hst⟩ := ih hs ht h2
      exact ⟨by rw [h1, hab], hst⟩

lemma data_drawingKey (ex : String) (p : ℕ) :
    (drawingKey ex p).data = ex.data ++ '_' :: (Nat.repr p).data := by
  show (ex ++ "_" ++ Nat.repr p).data = _
  rw [String.data_append, String.data_append]
  rw [List.append_assoc]
  rfl

lemma drawingKey_inj {ex1 ex2 : String} {p1 p2 : ℕ}
    (h : drawingKey ex1 p1 = drawingKey ex2 p2) : ex1 = ex2 ∧ p1 = p2 := by
  have hd := congrArg String.data h
  rw [data_drawingKey, data_drawingKey] at hd
  have hs1 : ∀ c ∈ (Nat.repr p1).data, c ≠ '_' := by
    rw [repr_data]
    exact toDigits_ne_underscore p1
  have hs2 : ∀ c ∈ (Nat.repr p2).data, c ≠ '_' := by
    rw [repr_data]
    exact toDigits_ne_underscore p2
  obtain ⟨hex, hp⟩ := split_at_last_underscore hs1 hs2 hd
  exact ⟨String.ext hex, repr_inj (String.ext hp)⟩

/-- Claim C8: `saveDrawing` writes exactly the key of the current exercise
and page — every other exercise/page key keeps its old snapshot —
`restoreDrawing` reads that same key back, and since decimal page numbers
contain no underscore, distinct (exercise, page) pairs always yield
distinct keys. -/
theorem drawing_key_isolation (savedDrawings : String → Option String)
    (ex ex2 : String) (p p2 : ℕ) (dataUrl : String)
    (h : (ex2, p2) ≠ (ex, p)) :
    restoreDrawing (saveDrawing savedDrawings ex p dataUrl) ex p = some dataUrl ∧
    restoreDrawing (saveDrawing savedDrawings ex p dataUrl) ex2 p2 =
      restoreDrawing savedDrawings ex2 p2 ∧
    saveDrawing savedDrawings ex p dataUrl (drawingKey ex2 p2) =
      savedDrawings (drawingKey ex2 p2) ∧
    drawingKey ex2 p2 ≠ drawingKey ex p := by
  have hk : drawingKey ex2 p2 ≠ drawingKey ex p := by
    intro he
    obtain ⟨h1, h2⟩ := drawingKey_inj he
    exact h (by rw [h1, h2])
  refine ⟨?_, ?_, ?_, hk⟩
  · unfold restoreDrawing saveDrawing
    rw [if_pos rfl]
  · unfold restoreDrawing saveDrawing
    rw [if_neg hk]
  · unfold saveDrawing
    rw [if_neg hk]

/-- Witness for `drawing_key_isolation`: saving on page 1 of exercise "Ex"
does not touch the key of page 2. -/
theorem drawing_key_isolation_witness :
    restoreDrawing (saveDrawing (fun _ => none) "Ex" 1 "img") "Ex" 1 = some "img" ∧
    restoreDrawing (saveDrawing (fun _ => none) "Ex" 1 "img") "Ex" 2 =
      restoreDrawing (fun _ => none) "Ex" 2 ∧
    saveDrawing (fun _ => none) "Ex" 1 "img" (drawingKey "Ex" 2) =
      (fun _ => none : String → Option String) (drawingKey "Ex" 2) ∧
    drawingKey "Ex" 2 ≠ drawingKey "Ex" 1 :=
  drawing_key_isolation (fun _ => none) "Ex" "Ex" 1 2 "img" (by decide)

/-- The in-memory `state.drawing.brushSizes` record: one remembered width
per tool. -/
structure BrushSizes where
  pen : ℕ
  highlighter : ℕ
  eraser : ℕ
deriving DecidableEq

/-- The defaults declared in the initial `state` object. -/
def defaultBrushSizes : BrushSizes := { pen := 4, highlighter := 12, eraser := 20 }

/-- A persisted brush-width record parsed from storage, which may carry
widths for only a subset of the tools. -/
structure StoredBrushSizes where
  pen : Option ℕ
  highlighter : Option ℕ
  eraser : Option ℕ

/-- The spread merge `{ ...state.drawing.brushSizes, ...sizes }` performed
by `loadBrushSizes`: every tool present in the stored record wins, every
absent tool keeps the current in-memory width. -/
def mergeBrushSizes (current : BrushSizes) (stored : StoredBrushSizes) : BrushSizes :=
  { pen := stored.pen.getD current.pen
    highlighter := stored.highlighter.getD current.highlighter
    eraser := stored.eraser.getD current.eraser }

/-- `loadBrushSizes()`: when storage holds a record, merge it over the
in-memory record; when storage is empty, keep the current record. -/
def loadBrushSizes (current : BrushSizes) (saved : Option StoredBrushSizes) : BrushSizes :=
  match saved with
  | none => current
  | some sizes => mergeBrushSizes current sizes

/-- Claim C10: `loadBrushSizes` merges the stored record over the defaults
rather than replacing them — each tool present in the stored record takes
its stored width and each absent tool keeps its default (pen 4,
highlighter 12, eraser 20). -/
theorem loadBrushSizes_merges_over_defaults (s : StoredBrushSizes) :
    defaultBrushSizes = { pen := 4, highlighter := 12, eraser := 20 } ∧
    (∀ v, s.pen = some v → (loadBrushSizes defaultBrushSizes (some s)).pen = v) ∧
    (s.pen = none → (loadBrushSizes defaultBrushSizes (some s)).pen = 4) ∧
    (∀ v, s.highlighter = some v →
      (loadBrushSizes defaultBrushSizes (some s)).highlighter = v) ∧
    (s.highlighter = none → (loadBrushSizes defaultBrushSizes (some s)).highlighter = 12) ∧
    (∀ v, s.eraser = some v → (loadBrushSizes defaultBrushSizes (some s)).eraser = v) ∧
    (s.eraser = none → (loadBrushSizes defaultBrushSizes (some s)).eraser = 20) := by
  refine ⟨rfl, fun v hv => ?_, fun hv => ?_, fun v hv => ?_, fun hv => ?_,
    fun v hv => ?_, fun hv => ?_⟩ <;>
    simp [loadBrushSizes, mergeBrushSizes, defaultBrushSizes, hv]

/-- Witness for `loadBrushSizes_merges_over_defaults`: a stored record
carrying only a pen width of 7 and an eraser width of 25. -/
theorem loadBrushSizes_merges_over_defaults_witness :
    (loadBrushSizes defaultBrushSizes (some ⟨some 7, none, some 25⟩)).pen = 7 ∧
    (loadBrushSizes defaultBrushSizes (some ⟨some 7, none, some 25⟩)).highlighter = 12 ∧
    (loadBrushSizes defaultBrushSizes (some ⟨some 7, none, some 25⟩)).eraser = 25 :=
  ⟨(loadBrushSizes_merges_over_defaults ⟨some 7, none, some 25⟩).2.1 7 rfl,
   (loadBrushSizes_merges_over_defaults ⟨some 7, none, some 25⟩).2.2.2.2.1 rfl,
   (loadBrushSizes_merges_over_defaults ⟨some 7, none, some 25⟩).2.2.2.2.2.1 25 rfl⟩

end PsicoTrain
